import Mathlib

/-!
Verification of `src/ad2/assignment_1/binary_mult.py`, a divide-and-conquer
(Karatsuba-style) multiplier on binary numbers represented as lists of bits,
most-significant bit first.

The Python code mutates its list arguments in place (`insert`, `pop`,
`reverse`, `+=`).  The embedding uses the standard state-passing translation:
every function that mutates an argument returns the final state of that
argument next to its return value, and callers thread those states through in
the exact order of the source statements.  Python 2 integer division `/` on
non-negative integers is `Nat` division.  A subscript on an empty list raises
`IndexError`; the embedding returns `none` there, so fallible code lives in
`Option`.  The recursion of `binary_mult` is expressed with a fuel parameter
(`binary_multF`); `binary_mult` supplies fuel that is proved sufficient
(`binary_multF_isSome`), so the fuel-out branch is unreachable for the calls
the theorems speak about.
-/

namespace BinaryMult

/-- Value of a bit sequence, most-significant bit first (the `bits_to_int`
conversion the spec uses to state correctness). -/
def bits_to_int (L : List Nat) : Nat :=
  L.foldl (fun a b => 2 * a + b) 0

/-- Value of a bit sequence, least-significant bit first; used to reason about
the reversed lists inside `binary_add`. -/
def valLSB (L : List Nat) : Nat :=
  L.foldr (fun b a => b + 2 * a) 0

/-- The list is a genuine bit sequence: every element is 0 or 1. -/
def IsBits (L : List Nat) : Prop := ∀ x ∈ L, x ≤ 1

instance (L : List Nat) : Decidable (IsBits L) :=
  List.decidableBAll _ L

/-- `prepend_n_times(X, n)`: inserts `0` at position 0, `n` times, i.e. the
list `[0]*n` followed by `X`. -/
def prepend_n_times (X : List Nat) (n : Nat) : List Nat :=
  List.replicate n 0 ++ X

/-- `append_n_times(X, n)`: extends `X` with the list `[0]*n`. -/
def append_n_times (X : List Nat) (n : Nat) : List Nat :=
  X ++ List.replicate n 0

/-- `pop_n_times(X, n)`: pops the first element `n` times.  Every call site
(`length_modifier`) guarantees `n ≤ len(X)`, where this agrees with `drop`. -/
def pop_n_times (X : List Nat) (n : Nat) : List Nat :=
  X.drop n

/-- First statement block of `pad_same_length`: the shorter list is
left-padded with zeros to the longer length (`prepend_n_times`); the `else`
branch also covers equal lengths, prepending zero zeros). -/
def pad_first (X Y : List Nat) : List Nat × List Nat :=
  if Y.length < X.length then (X, prepend_n_times Y (X.length - Y.length))
  else (prepend_n_times X (Y.length - X.length), Y)

/-- Second statement block of `pad_same_length`: if the common length is odd
and not 1, `X.insert(0,0); Y.insert(0,0)` prepends one more zero to both. -/
def pad_even (p : List Nat × List Nat) : List Nat × List Nat :=
  if p.1.length % 2 ≠ 0 ∧ p.1.length ≠ 1 then (0 :: p.1, 0 :: p.2) else p

/-- `pad_same_length(X, Y)` mutates `X` and `Y`; the result is the pair of
their final states: equalize the lengths, then bump an odd common length
other than 1 to even. -/
def pad_same_length (X Y : List Nat) : List Nat × List Nat :=
  pad_even (pad_first X Y)

/-- The `for X_element in X` loop of `binary_add`, on the already reversed
(least-significant-bit-first) lists, with the running carry.  When `X` is
exhausted the final carry is appended (`result.extend([carry])` when
`carry == 1`).  The case of `X` longer than `Y` would raise `IndexError` in
the source; it is unreachable because `binary_add` pads first, and the
embedding returns the cells written so far. -/
def add_loop : List Nat → List Nat → Nat → List Nat
  | [], _, c => if c = 1 then [1] else []
  | x :: xs, y :: ys, c =>
      (y + x + c) % 2 :: add_loop xs ys (if 1 < y + x + c then 1 else 0)
  | _ :: _, [], _ => []

/-- `binary_add(X, Y)` mutates `X` and `Y` (pads them to a common length and
reverses them in place, never undoing the reversal) and returns a freshly
built sum list, reversed back to most-significant-bit first.  The triple is
(final state of `X`, final state of `Y`, return value). -/
def binary_add (X Y : List Nat) : List Nat × List Nat × List Nat :=
  let p := pad_same_length X Y
  let Xr := p.1.reverse
  let Yr := p.2.reverse
  let result := add_loop Xr Yr 0
  (Xr, Yr, result.reverse)

/-- `length_modifier(X, length)` forces `X` to exactly `length*2` elements:
prepend zeros when shorter, pop leading elements when longer.  Result is the
final state of `X`. -/
def length_modifier (X : List Nat) (n : Nat) : List Nat :=
  if X.length < n * 2 then prepend_n_times X (n * 2 - X.length)
  else pop_n_times X (X.length - n * 2)

/-- The prologue of the recursive branch of `binary_mult`: the four slices
`A1 = A[:len(A)/2]`, `A2 = A[len(A)/2:]`, `B1 = B[:len(B)/2]`,
`B2 = B[len(B)/2:]` (slicing copies), followed by the four in-place
`pad_same_length` calls in source order, each reading the states left by the
previous ones.  Returns the final states `(A1, B1, A2, B2)`. -/
def mult_split_pad (A B : List Nat) :
    List Nat × List Nat × List Nat × List Nat :=
  let A1 := A.take (A.length / 2)
  let A2 := A.drop (A.length / 2)
  let B1 := B.take (B.length / 2)
  let B2 := B.drop (B.length / 2)
  let p1 := pad_same_length A1 B1
  let p2 := pad_same_length p1.1 B2
  let p3 := pad_same_length A2 p1.2
  let p4 := pad_same_length p3.1 p2.2
  (p2.1, p3.2, p4.1, p4.2)

/-- Fuel-indexed embedding of `binary_mult(A, B)`.  Returns
`((final state of A, final state of B), return value)`; `none` models an
`IndexError` (`A[0]` or `B[0]` on an empty list in the base case) — the fuel-0
branch is unreachable once the fuel is at least `max len(A) len(B) + 1`
(`binary_multF_isSome`).  The four recursive calls receive the argument
states left by the padding step and by the earlier recursive calls, in source
order. -/
def binary_multF : Nat → List Nat → List Nat →
    Option ((List Nat × List Nat) × List Nat)
  | 0, _, _ => none
  | f + 1, A, B =>
    if 1 < A.length then
      let q := mult_split_pad A B
      (binary_multF f q.1 q.2.1).bind fun r1 =>
      (binary_multF f r1.1.1 q.2.2.2).bind fun r2 =>
      (binary_multF f q.2.2.1 r1.1.2).bind fun r3 =>
      (binary_multF f r3.1.1 r2.1.2).bind fun r4 =>
      (let s1 := binary_add r2.2 r3.2
       let cross_sum := s1.2.2
       let Left := append_n_times r1.2 A.length
       let Middle := append_n_times cross_sum (A.length / 2)
       let s2 := binary_add Left Middle
       let mid_sum := s2.2.2
       let s3 := binary_add mid_sum r4.2
       let final_sum := s3.2.2
       some ((A, B), length_modifier final_sum A.length))
    else
      match A, B with
      | a :: _, b :: _ => some ((A, B), [a * b])
      | _, _ => none

/-- `binary_mult(A, B)` with sufficient fuel. -/
def binary_mult (A B : List Nat) : Option ((List Nat × List Nat) × List Nat) :=
  binary_multF (max A.length B.length + 1) A B

/-- The value `binary_mult(A, B)` returns to its caller. -/
def binary_mult_ret (A B : List Nat) : Option (List Nat) :=
  (binary_mult A B).map (fun r => r.2)

/-- The four argument pairs `binary_mult(A, B)` passes to its recursive
calls (for `len(A) > 1`), in source order, with the states each call
actually receives. -/
def subcalls (A B : List Nat) : List (List Nat × List Nat) :=
  let q := mult_split_pad A B
  [(q.1, q.2.1), (q.1, q.2.2.2), (q.2.2.1, q.2.1), (q.2.2.1, q.2.2.2)]

/-- `Invoked A B C D`: a recursive invocation `binary_mult(C, D)` is reached
(at any depth) from a top-level call `binary_mult(A, B)`. -/
inductive Invoked : List Nat → List Nat → List Nat → List Nat → Prop
  | direct {A B C D : List Nat} :
      1 < A.length → (C, D) ∈ subcalls A B → Invoked A B C D
  | step {A B C D E F : List Nat} :
      Invoked A B C D → 1 < C.length → (E, F) ∈ subcalls C D →
      Invoked A B E F

/-- Round an odd length other than 1 up to the next even number; the length
`pad_same_length` produces from a common length. -/
def evenize (k : Nat) : Nat :=
  if k % 2 ≠ 0 ∧ k ≠ 1 then k + 1 else k

/-- Length of `A1` and `B1` after `pad_same_length(A1, B1)`, as a function of
`n = len(A)` and `m = len(B)`. -/
def splitL1 (n m : Nat) : Nat := evenize (max (n / 2) (m / 2))

/-- Final length of `A1`, and of `B2` after `pad_same_length(A1, B2)`. -/
def splitL2 (n m : Nat) : Nat := evenize (max (splitL1 n m) (m - m / 2))

/-- Final length of `B1`, and of `A2` after `pad_same_length(A2, B1)`. -/
def splitL3 (n m : Nat) : Nat := evenize (max (n - n / 2) (splitL1 n m))

/-- Final length of `A2` and `B2` after `pad_same_length(A2, B2)`. -/
def splitL4 (n m : Nat) : Nat := evenize (max (splitL3 n m) (splitL2 n m))

/-! ## Values of bit sequences -/

lemma bits_foldl_acc (L : List Nat) (a : Nat) :
    L.foldl (fun a b => 2 * a + b) a = a * 2 ^ L.length + bits_to_int L := by
  induction L generalizing a with
  | nil => simp [bits_to_int]
  | cons x t ih =>
    simp only [List.foldl_cons, List.length_cons, bits_to_int]
    rw [ih (2 * a + x), ih (2 * 0 + x)]
    ring

lemma bits_to_int_cons (x : Nat) (t : List Nat) :
    bits_to_int (x :: t) = x * 2 ^ t.length + bits_to_int t := by
  have h := bits_foldl_acc t x
  simp only [bits_to_int, List.foldl_cons]
  calc t.foldl (fun a b => 2 * a + b) (2 * 0 + x)
      = t.foldl (fun a b => 2 * a + b) x := by norm_num
    _ = x * 2 ^ t.length + bits_to_int t := h

lemma bits_to_int_replicate_zero_append (k : Nat) (X : List Nat) :
    bits_to_int (List.replicate k 0 ++ X) = bits_to_int X := by
  induction k with
  | zero => simp
  | succ n ih =>
    rw [List.replicate_succ, List.cons_append, bits_to_int_cons]
    simpa using ih

lemma valLSB_cons (x : Nat) (t : List Nat) :
    valLSB (x :: t) = x + 2 * valLSB t := rfl

lemma valLSB_append (L M : List Nat) :
    valLSB (L ++ M) = valLSB L + 2 ^ L.length * valLSB M := by
  induction L with
  | nil => simp [valLSB]
  | cons x t ih =>
    simp only [List.cons_append, valLSB_cons, ih, List.length_cons]
    ring

lemma bits_to_int_eq_valLSB_reverse (L : List Nat) :
    bits_to_int L = valLSB L.reverse := by
  induction L with
  | nil => rfl
  | cons x t ih =>
    rw [bits_to_int_cons, List.reverse_cons, valLSB_append, ← ih]
    simp [valLSB_cons, valLSB]
    ring

lemma valLSB_reverse (L : List Nat) : valLSB L.reverse = bits_to_int L :=
  (bits_to_int_eq_valLSB_reverse L).symm

/-! ## Bit-sequence predicates -/

lemma isBits_replicate_zero_append {X : List Nat} (h : IsBits X) (k : Nat) :
    IsBits (List.replicate k 0 ++ X) := by
  intro x hx
  rcases List.mem_append.mp hx with hx | hx
  · simp [List.eq_of_mem_replicate hx]
  · exact h x hx

lemma isBits_reverse {X : List Nat} (h : IsBits X) : IsBits X.reverse := by
  intro x hx
  exact h x (List.mem_reverse.mp hx)

/-! ## evenize -/

lemma le_evenize (k : Nat) : k ≤ evenize k := by
  unfold evenize; split <;> omega

lemma evenize_le (k : Nat) : evenize k ≤ k + 1 := by
  unfold evenize; split <;> omega

lemma evenize_mono {a b : Nat} (h : a ≤ b) : evenize a ≤ evenize b := by
  unfold evenize; split <;> split <;> omega

lemma evenize_evenize (k : Nat) : evenize (evenize k) = evenize k := by
  unfold evenize; split <;> (try split) <;> omega

lemma evenize_even_or_one (k : Nat) :
    evenize k % 2 = 0 ∨ evenize k = 1 := by
  unfold evenize; split <;> omega

/-! ## pad_same_length -/

lemma pad_first_fst_length (X Y : List Nat) :
    (pad_first X Y).1.length = max X.length Y.length := by
  unfold pad_first
  split <;> simp [prepend_n_times] <;> omega

lemma pad_first_snd_length (X Y : List Nat) :
    (pad_first X Y).2.length = max X.length Y.length := by
  unfold pad_first
  split <;> simp [prepend_n_times] <;> omega

lemma pad_first_fst_shape (X Y : List Nat) :
    ∃ k, (pad_first X Y).1 = List.replicate k 0 ++ X := by
  unfold pad_first
  split
  · exact ⟨0, by simp⟩
  · exact ⟨Y.length - X.length, rfl⟩

lemma pad_first_snd_shape (X Y : List Nat) :
    ∃ k, (pad_first X Y).2 = List.replicate k 0 ++ Y := by
  unfold pad_first
  split
  · exact ⟨X.length - Y.length, rfl⟩
  · exact ⟨0, by simp⟩

lemma pad_even_cases (p : List Nat × List Nat) :
    pad_even p = p ∨ pad_even p = (0 :: p.1, 0 :: p.2) := by
  unfold pad_even
  split
  · right; rfl
  · left; rfl

lemma pad_even_fst_length (p : List Nat × List Nat) :
    (pad_even p).1.length = evenize p.1.length := by
  unfold pad_even evenize
  split <;> simp

lemma pad_even_snd_length (p : List Nat × List Nat)
    (h : p.2.length = p.1.length) :
    (pad_even p).2.length = evenize p.1.length := by
  unfold pad_even evenize
  split <;> simp [h]

lemma pad_fst_length (X Y : List Nat) :
    (pad_same_length X Y).1.length = evenize (max X.length Y.length) := by
  unfold pad_same_length
  rw [pad_even_fst_length, pad_first_fst_length]

lemma pad_snd_length (X Y : List Nat) :
    (pad_same_length X Y).2.length = evenize (max X.length Y.length) := by
  unfold pad_same_length
  rw [pad_even_snd_length _ ((pad_first_snd_length X Y).trans
    (pad_first_fst_length X Y).symm), pad_first_fst_length]

lemma pad_fst_shape (X Y : List Nat) :
    ∃ k, (pad_same_length X Y).1 = List.replicate k 0 ++ X := by
  obtain ⟨k, hk⟩ := pad_first_fst_shape X Y
  unfold pad_same_length
  rcases pad_even_cases (pad_first X Y) with h | h <;> rw [h]
  · exact ⟨k, hk⟩
  · exact ⟨k + 1, by simp [hk, List.replicate_succ]⟩

lemma pad_snd_shape (X Y : List Nat) :
    ∃ k, (pad_same_length X Y).2 = List.replicate k 0 ++ Y := by
  obtain ⟨k, hk⟩ := pad_first_snd_shape X Y
  unfold pad_same_length
  rcases pad_even_cases (pad_first X Y) with h | h <;> rw [h]
  · exact ⟨k, hk⟩
  · exact ⟨k + 1, by simp [hk, List.replicate_succ]⟩

lemma pad_fst_isBits {X : List Nat} (hX : IsBits X) (Y : List Nat) :
    IsBits (pad_same_length X Y).1 := by
  obtain ⟨k, hk⟩ := pad_fst_shape X Y
  rw [hk]
  exact isBits_replicate_zero_append hX k

lemma pad_snd_isBits (X : List Nat) {Y : List Nat} (hY : IsBits Y) :
    IsBits (pad_same_length X Y).2 := by
  obtain ⟨k, hk⟩ := pad_snd_shape X Y
  rw [hk]
  exact isBits_replicate_zero_append hY k

lemma pad_fst_value {X : List Nat} (Y : List Nat) :
    bits_to_int (pad_same_length X Y).1 = bits_to_int X := by
  obtain ⟨k, hk⟩ := pad_fst_shape X Y
  rw [hk, bits_to_int_replicate_zero_append]

lemma pad_snd_value (X : List Nat) {Y : List Nat} :
    bits_to_int (pad_same_length X Y).2 = bits_to_int Y := by
  obtain ⟨k, hk⟩ := pad_snd_shape X Y
  rw [hk, bits_to_int_replicate_zero_append]

/-! ## binary_add -/

lemma add_loop_val :
    ∀ (X Y : List Nat) (c : Nat), X.length = Y.length →
      IsBits X → IsBits Y → c ≤ 1 →
      valLSB (add_loop X Y c) = valLSB X + valLSB Y + c := by
  intro X
  induction X with
  | nil =>
    intro Y c hlen _ _ hc
    have hY : Y = [] := List.eq_nil_of_length_eq_zero hlen.symm
    subst hY
    unfold add_loop
    split <;> simp [valLSB] <;> omega
  | cons x xs ih =>
    intro Y c hlen hX hY hc
    match Y with
    | [] => simp at hlen
    | y :: ys =>
      have hx : x ≤ 1 := hX x (List.mem_cons_self x xs)
      have hy : y ≤ 1 := hY y (List.mem_cons_self y ys)
      have hxs : IsBits xs := fun a ha => hX a (List.mem_cons_of_mem x ha)
      have hys : IsBits ys := fun a ha => hY a (List.mem_cons_of_mem y ha)
      have hlen2 : xs.length = ys.length := by simpa using hlen
      show valLSB ((y + x + c) % 2 ::
          add_loop xs ys (if 1 < y + x + c then 1 else 0)) = _
      rw [valLSB_cons, valLSB_cons, valLSB_cons,
        ih ys (if 1 < y + x + c then 1 else 0) hlen2 hxs hys (by split <;> omega)]
      split <;> omega

lemma binary_add_eq (X Y : List Nat) :
    binary_add X Y = ((pad_same_length X Y).1.reverse,
      (pad_same_length X Y).2.reverse,
      (add_loop (pad_same_length X Y).1.reverse
        (pad_same_length X Y).2.reverse 0).reverse) := rfl

lemma binary_add_value {X Y : List Nat} (hX : IsBits X) (hY : IsBits Y) :
    bits_to_int (binary_add X Y).2.2 = bits_to_int X + bits_to_int Y := by
  rw [binary_add_eq]
  show bits_to_int (add_loop (pad_same_length X Y).1.reverse
    (pad_same_length X Y).2.reverse 0).reverse = _
  rw [bits_to_int_eq_valLSB_reverse, List.reverse_reverse,
    add_loop_val _ _ 0
      (by simp [pad_fst_length, pad_snd_length])
      (isBits_reverse (pad_fst_isBits hX Y))
      (isBits_reverse (pad_snd_isBits X hY))
      (by omega),
    valLSB_reverse, valLSB_reverse, pad_fst_value, pad_snd_value]
  omega

lemma binary_add_isBits {X Y : List Nat} : IsBits (binary_add X Y).2.2 := by
  rw [binary_add_eq]
  show IsBits (add_loop _ _ 0).reverse
  apply isBits_reverse
  generalize (pad_same_length X Y).1.reverse = U
  generalize (pad_same_length X Y).2.reverse = V
  generalize h0 : (0 : Nat) = c
  have hc : c ≤ 1 := by omega
  clear h0
  induction U generalizing V c with
  | nil =>
    intro a ha
    unfold add_loop at ha
    split at ha <;> simp at ha
    omega
  | cons x xs ih =>
    intro a ha
    match V with
    | [] =>
      simp [add_loop] at ha
    | y :: ys =>
      rw [show add_loop (x :: xs) (y :: ys) c = (y + x + c) % 2 ::
          add_loop xs ys (if 1 < y + x + c then 1 else 0) from rfl] at ha
      rcases List.mem_cons.mp ha with h | h
      · omega
      · exact ih ys (if 1 < y + x + c then 1 else 0) (by split <;> omega) a h

/-! ## length_modifier -/

lemma length_modifier_length (X : List Nat) (n : Nat) :
    (length_modifier X n).length = n * 2 := by
  unfold length_modifier prepend_n_times pop_n_times
  split <;> simp <;> omega

/-! ## mult_split_pad -/

lemma msp_lengths (A B : List Nat) :
    (mult_split_pad A B).1.length = splitL2 A.length B.length ∧
    (mult_split_pad A B).2.1.length = splitL3 A.length B.length ∧
    (mult_split_pad A B).2.2.1.length = splitL4 A.length B.length ∧
    (mult_split_pad A B).2.2.2.length = splitL4 A.length B.length := by
  have htA : (A.take (A.length / 2)).length = A.length / 2 := by
    simp [List.length_take, Nat.min_eq_left (Nat.div_le_self _ _)]
  have htB : (B.take (B.length / 2)).length = B.length / 2 := by
    simp [List.length_take, Nat.min_eq_left (Nat.div_le_self _ _)]
  have hdA : (A.drop (A.length / 2)).length = A.length - A.length / 2 := by
    simp
  have hdB : (B.drop (B.length / 2)).length = B.length - B.length / 2 := by
    simp
  unfold mult_split_pad splitL4 splitL3 splitL2 splitL1
  refine ⟨?_, ?_, ?_, ?_⟩ <;>
    simp only [pad_fst_length, pad_snd_length, htA, htB, hdA, hdB]

lemma evenize_half_lt (μ : Nat) (h : 2 ≤ μ) : evenize (μ - μ / 2) < μ := by
  unfold evenize; split <;> omega

lemma splitL_le (n m : Nat) :
    splitL1 n m ≤ evenize (max n m - max n m / 2) ∧
    splitL2 n m ≤ evenize (max n m - max n m / 2) ∧
    splitL3 n m ≤ evenize (max n m - max n m / 2) ∧
    splitL4 n m ≤ evenize (max n m - max n m / 2) := by
  have hn : n ≤ max n m := le_max_left n m
  have hm : m ≤ max n m := le_max_right n m
  have h1 : n / 2 ≤ max n m - max n m / 2 := by omega
  have h2 : m / 2 ≤ max n m - max n m / 2 := by omega
  have h3 : n - n / 2 ≤ max n m - max n m / 2 := by omega
  have h4 : m - m / 2 ≤ max n m - max n m / 2 := by omega
  have hHE : max n m - max n m / 2 ≤ evenize (max n m - max n m / 2) :=
    le_evenize _
  have L1 : splitL1 n m ≤ evenize (max n m - max n m / 2) :=
    evenize_mono (max_le h1 h2)
  have L2 : splitL2 n m ≤ evenize (max n m - max n m / 2) := by
    unfold splitL2
    have h := evenize_mono (max_le L1 (h4.trans hHE))
    rwa [evenize_evenize] at h
  have L3 : splitL3 n m ≤ evenize (max n m - max n m / 2) := by
    unfold splitL3
    have h := evenize_mono (max_le (h3.trans hHE) L1)
    rwa [evenize_evenize] at h
  have L4 : splitL4 n m ≤ evenize (max n m - max n m / 2) := by
    unfold splitL4
    have h := evenize_mono (max_le L3 L2)
    rwa [evenize_evenize] at h
  exact ⟨L1, L2, L3, L4⟩

lemma splitL_pos (n m : Nat) (h : 1 < n) :
    0 < splitL2 n m ∧ 0 < splitL3 n m ∧ 0 < splitL4 n m := by
  have h1 : 0 < splitL1 n m := by
    have : n / 2 ≤ splitL1 n m := (le_max_left _ _).trans (le_evenize _)
    omega
  have h2 : 0 < splitL2 n m := by
    have : splitL1 n m ≤ splitL2 n m := (le_max_left _ _).trans (le_evenize _)
    omega
  have h3 : 0 < splitL3 n m := by
    have : n - n / 2 ≤ splitL3 n m := (le_max_left _ _).trans (le_evenize _)
    omega
  have h4 : 0 < splitL4 n m := by
    have : splitL3 n m ≤ splitL4 n m := (le_max_left _ _).trans (le_evenize _)
    omega
  exact ⟨h2, h3, h4⟩

/-- With equal argument lengths, the four padded lists all end up with the
same length. -/
lemma splitL_eq_of_eq (n : Nat) :
    splitL3 n n = splitL2 n n ∧ splitL4 n n = splitL2 n n := by
  have h32 : splitL3 n n = splitL2 n n := by
    unfold splitL3 splitL2
    rw [max_comm]
  refine ⟨h32, ?_⟩
  unfold splitL4
  rw [h32, max_self]
  unfold splitL2
  exact evenize_evenize _

/-! ## binary_multF -/

lemma binary_multF_state :
    ∀ {f : Nat} {A B : List Nat} {r : (List Nat × List Nat) × List Nat},
      binary_multF f A B = some r → r.1 = (A, B) := by
  intro f A B r h
  match f with
  | 0 => simp [binary_multF] at h
  | f + 1 =>
    simp only [binary_multF] at h
    by_cases hl : 1 < A.length
    · rw [if_pos hl] at h
      simp only [Option.bind_eq_some] at h
      obtain ⟨r1, _, r2, _, r3, _, r4, _, h⟩ := h
      simp only [Option.some.injEq] at h
      rw [← h]
    · rw [if_neg hl] at h
      rcases A with _ | ⟨a, As⟩ <;> rcases B with _ | ⟨b, Bs⟩
      · exact Option.noConfusion h
      · exact Option.noConfusion h
      · exact Option.noConfusion h
      · simp only [Option.some.injEq] at h
        rw [← h]

lemma binary_multF_isSome :
    ∀ (f : Nat) (A B : List Nat), max A.length B.length < f →
      A ≠ [] → (A.length ≤ 1 → B ≠ []) → (binary_multF f A B).isSome := by
  intro f
  induction f with
  | zero =>
    intro A B h hA hB1
    exact absurd h (Nat.not_lt_zero _)
  | succ f ih =>
    intro A B h hA hB1
    by_cases hl : 1 < A.length
    · have hμ : 2 ≤ max A.length B.length := le_trans hl (le_max_left _ _)
      have hμf : max A.length B.length ≤ f := by omega
      obtain ⟨e1, e2, e3, e4⟩ := msp_lengths A B
      obtain ⟨_, b2, b3, b4⟩ := splitL_le A.length B.length
      obtain ⟨p2, p3, p4⟩ := splitL_pos A.length B.length hl
      have hE : evenize (max A.length B.length - max A.length B.length / 2) <
          max A.length B.length := evenize_half_lt _ hμ
      set q := mult_split_pad A B with hq
      have hq1 : q.1.length < f := by omega
      have hq2 : q.2.1.length < f := by omega
      have hq3 : q.2.2.1.length < f := by omega
      have hq4 : q.2.2.2.length < f := by omega
      have hn1 : q.1 ≠ [] := List.ne_nil_of_length_pos (by omega)
      have hn2 : q.2.1 ≠ [] := List.ne_nil_of_length_pos (by omega)
      have hn3 : q.2.2.1 ≠ [] := List.ne_nil_of_length_pos (by omega)
      have hn4 : q.2.2.2 ≠ [] := List.ne_nil_of_length_pos (by omega)
      obtain ⟨r1, hr1⟩ := Option.isSome_iff_exists.mp
        (ih q.1 q.2.1 (max_lt hq1 hq2) hn1 (fun _ => hn2))
      have hst1 : r1.1.1 = q.1 ∧ r1.1.2 = q.2.1 := by
        have h := binary_multF_state hr1
        rw [h]; exact ⟨rfl, rfl⟩
      obtain ⟨r2, hr2⟩ := Option.isSome_iff_exists.mp
        (ih q.1 q.2.2.2 (max_lt hq1 hq4) hn1 (fun _ => hn4))
      have hst2 : r2.1.2 = q.2.2.2 := by
        have h := binary_multF_state hr2
        rw [h]
      obtain ⟨r3, hr3⟩ := Option.isSome_iff_exists.mp
        (ih q.2.2.1 q.2.1 (max_lt hq3 hq2) hn3 (fun _ => hn2))
      have hst3 : r3.1.1 = q.2.2.1 := by
        have h := binary_multF_state hr3
        rw [h]
      obtain ⟨r4, hr4⟩ := Option.isSome_iff_exists.mp
        (ih q.2.2.1 q.2.2.2 (max_lt hq3 hq4) hn3 (fun _ => hn4))
      simp only [binary_multF, if_pos hl, ← hq]
      rw [hr1]
      simp only [Option.some_bind]
      rw [hst1.1, hr2]
      simp only [Option.some_bind]
      rw [hst1.2, hr3]
      simp only [Option.some_bind]
      rw [hst3, hst2, hr4]
      simp only [Option.some_bind]
      simp
    · have hB : B ≠ [] := hB1 (by omega)
      simp only [binary_multF, if_neg hl]
      rcases A with _ | ⟨a, As⟩ <;> rcases B with _ | ⟨b, Bs⟩ <;> simp_all

lemma binary_multF_ret_length :
    ∀ {f : Nat} {A B : List Nat} {r : (List Nat × List Nat) × List Nat},
      binary_multF f A B = some r → 1 < A.length →
      r.2.length = A.length * 2 := by
  intro f A B r h hl
  match f with
  | 0 => simp [binary_multF] at h
  | f + 1 =>
    simp only [binary_multF, if_pos hl] at h
    simp only [Option.bind_eq_some] at h
    obtain ⟨r1, _, r2, _, r3, _, r4, _, h⟩ := h
    simp only [Option.some.injEq] at h
    rw [← h]
    exact length_modifier_length _ _

/-- The base case of `binary_mult`: two single-bit lists. -/
lemma binary_mult_single (a b : Nat) :
    binary_mult [a] [b] = some (([a], [b]), [a * b]) := rfl

/-- With an empty first argument the base case evaluates `A[0]` on `[]`:
an index error, whatever `B` is. -/
lemma binary_mult_nil_left (B : List Nat) : binary_mult [] B = none := by
  cases B <;> rfl

/-- With a singleton first argument and empty second argument the base case
evaluates `B[0]` on `[]`: an index error. -/
lemma binary_mult_single_nil (a : Nat) : binary_mult [a] [] = none := rfl

lemma splitL2_even_or_one (n m : Nat) :
    splitL2 n m % 2 = 0 ∨ splitL2 n m = 1 :=
  evenize_even_or_one _

lemma splitL4_even_or_one (n m : Nat) :
    splitL4 n m % 2 = 0 ∨ splitL4 n m = 1 :=
  evenize_even_or_one _

/-- One level of the recursion: if the two arguments have equal length
`> 1`, every pair passed to a recursive call consists of two lists of one
common length, and that length is even or 1. -/
lemma subcalls_invariant {A B C D : List Nat} (hlen : A.length = B.length)
    (hmem : (C, D) ∈ subcalls A B) :
    C.length = D.length ∧ (C.length % 2 = 0 ∨ C.length = 1) := by
  obtain ⟨e1, e2, e3, e4⟩ := msp_lengths A B
  rw [hlen] at e1 e2 e3 e4
  obtain ⟨h32, h42⟩ := splitL_eq_of_eq B.length
  have hpar2 := splitL2_even_or_one B.length B.length
  have hpar4 := splitL4_even_or_one B.length B.length
  simp only [subcalls, List.mem_cons, List.not_mem_nil, or_false] at hmem
  rcases hmem with h | h | h | h <;> injection h with hC hD <;> subst hC <;>
    subst hD <;> simp only [e1, e2, e3, e4]
  · exact ⟨by omega, by omega⟩
  · exact ⟨by omega, by omega⟩
  · exact ⟨by omega, by omega⟩
  · exact ⟨trivial, by omega⟩

/-! ## Claim theorems -/

/-- C1 (code bug): the spec demands `bits_to_int(multiply(int_to_bits(a,n),
int_to_bits(b,n))) == a * b` for every `n ≥ 1`, explicitly including the
non-power-of-two length `n = 3`; the code's own docstring states the same
intent (`Post: The result of multiplying A*B binary`).  The code violates it:
at `n = 3`, `A = [0,1,1]` (a = 3) and `B = [1,0,0]` (b = 4) the recursive
combination shifts by `length` and `length/2` where the split widths demand
`2*ceil(n/2)` and `ceil(n/2)`, so the call returns `[0,0,0,1,1,0]`, the
number 6, instead of 12. -/
theorem binary_mult_odd_width_bug :
    bits_to_int [0, 1, 1] = 3 ∧ bits_to_int [1, 0, 0] = 4 ∧
      binary_mult_ret [0, 1, 1] [1, 0, 0] = some [0, 0, 0, 1, 1, 0] ∧
      bits_to_int [0, 0, 0, 1, 1, 0] = 6 ∧ 3 * 4 ≠ 6 :=
  ⟨by decide, by decide, by decide, by decide, by decide⟩

/-- C2 (code bug): the docstring of `binary_mult` promises
`binary_mult([0,1,1],[1,0,0]) = [0,0,1,1,0,0]` (the value 12 in 6 bits), but
the function returns `[0,0,0,1,1,0]` (the value 6). -/
theorem binary_mult_docstring_example_bug :
    binary_mult_ret [0, 1, 1] [1, 0, 0] = some [0, 0, 0, 1, 1, 0] ∧
      ([0, 0, 0, 1, 1, 0] : List Nat) ≠ [0, 0, 1, 1, 0, 0] :=
  ⟨by decide, by decide⟩

/-- C3 (counterexample): the claim says the output of `binary_mult` has
length `2*n` including the base case `n = 1`, but `binary_mult([1],[1])`
returns the single-element list `[1]`. -/
theorem binary_mult_base_length_counterexample :
    binary_mult_ret [1] [1] = some [1] ∧
      ([1] : List Nat).length ≠ 2 * ([1] : List Nat).length :=
  ⟨by decide, by decide⟩

/-- C3 (amended): for equal-length inputs of length `n ≥ 2` the returned
list has length exactly `2*n`; in the base case `n = 1` it has length 1. -/
theorem binary_mult_output_length (A B : List Nat) (hlen : A.length = B.length)
    (hpos : 0 < A.length) :
    ∃ R, binary_mult_ret A B = some R ∧
      R.length = if A.length = 1 then 1 else 2 * A.length := by
  by_cases h1 : A.length = 1
  · rw [if_pos h1]
    obtain ⟨a, ha⟩ := List.length_eq_one.mp h1
    have h1B : B.length = 1 := by omega
    obtain ⟨b, hb⟩ := List.length_eq_one.mp h1B
    subst ha; subst hb
    exact ⟨[a * b], rfl, rfl⟩
  · have hl : 1 < A.length := by omega
    have hA : A ≠ [] := by
      intro hA; rw [hA] at hl; simp at hl
    have hB : B ≠ [] := by
      intro hB
      rw [hB] at hlen
      simp only [List.length_nil] at hlen
      omega
    obtain ⟨r, hr⟩ := Option.isSome_iff_exists.mp
      (binary_multF_isSome (max A.length B.length + 1) A B (by omega) hA
        (fun _ => hB))
    refine ⟨r.2, ?_, ?_⟩
    · show (binary_mult A B).map (fun r => r.2) = some r.2
      rw [show binary_mult A B = some r from hr]
      rfl
    · rw [if_neg h1, binary_multF_ret_length hr hl]
      omega

/-- Witness for the amended C3 theorem at `A = [1,0]`, `B = [1,1]`. -/
theorem binary_mult_output_length_witness :
    ∃ R, binary_mult_ret [1, 0] [1, 1] = some R ∧
      R.length = if ([1, 0] : List Nat).length = 1 then 1
        else 2 * ([1, 0] : List Nat).length :=
  binary_mult_output_length [1, 0] [1, 1] rfl (by decide)

/-- C4 (counterexample): a call whose arguments violate the precondition
`len(A) == len(B)` does not fail fast: `binary_mult([0,1],[1])` returns the
normal result `[0,0,0,1]`. -/
theorem binary_mult_unequal_no_failfast :
    ([0, 1] : List Nat).length ≠ ([1] : List Nat).length ∧
      binary_mult_ret [0, 1] [1] = some [0, 0, 0, 1] :=
  ⟨by decide, by decide⟩

/-- C4 (amended): `binary_mult` performs no argument validation.  A call
aborts — with the base case's subscript on an empty list, an index error
rather than an explicit invalid-argument error — exactly when `A = []`, or
`len(A) ≤ 1` with `B = []`; every other call, including every call with
unequal-length non-empty arguments (such as `binary_mult([0,1],[1])`, which
returns `[0,0,0,1]` per the counterexample theorem), returns a normal
(possibly wrong) result rather than failing fast. -/
theorem binary_mult_no_validation (A B : List Nat) :
    binary_mult_ret A B = none ↔ A = [] ∨ (A.length ≤ 1 ∧ B = []) := by
  constructor
  · intro h
    by_contra hc
    push_neg at hc
    obtain ⟨hA, hAB⟩ := hc
    have hnone : binary_mult A B = none := by
      rcases hopt : binary_mult A B with _ | v
      · rfl
      · rw [binary_mult_ret, hopt] at h
        simp at h
    have hs : (binary_mult A B).isSome :=
      binary_multF_isSome (max A.length B.length + 1) A B (by omega) hA hAB
    rw [hnone] at hs
    simp at hs
  · rintro (hA | ⟨h1, hB⟩)
    · subst hA
      show (binary_mult [] B).map (fun r => r.2) = none
      rw [binary_mult_nil_left]
      rfl
    · subst hB
      rcases A with _ | ⟨a, As⟩
      · rfl
      · rcases As with _ | ⟨b, t⟩
        · rfl
        · simp only [List.length_cons] at h1
          omega

/-- C5: for all bit sequences `X`, `Y` (equal or unequal length), the value
of the list `binary_add(X, Y)` returns equals the value of `X` plus the
value of `Y`. -/
theorem binary_add_correct (X Y : List Nat) (hX : IsBits X) (hY : IsBits Y) :
    bits_to_int (binary_add X Y).2.2 = bits_to_int X + bits_to_int Y :=
  binary_add_value hX hY

/-- Witness for C5 at `X = [1,0,1]` (5), `Y = [1,1]` (3). -/
theorem binary_add_correct_witness :
    IsBits [1, 0, 1] ∧ IsBits [1, 1] ∧
      bits_to_int (binary_add [1, 0, 1] [1, 1]).2.2 =
        bits_to_int [1, 0, 1] + bits_to_int [1, 1] :=
  ⟨by decide, by decide,
    binary_add_correct [1, 0, 1] [1, 1] (by decide) (by decide)⟩

/-- C6: in every recursive invocation reached from a top-level call with
equal-length arguments, the two operand sequences have equal length, and
that length is even or 1 (established by the four `pad_same_length` calls
before recursing). -/
theorem binary_mult_recursion_invariant (A B C D : List Nat)
    (hlen : A.length = B.length) (h : Invoked A B C D) :
    C.length = D.length ∧ (C.length % 2 = 0 ∨ C.length = 1) := by
  induction h with
  | direct h1 hmem => exact subcalls_invariant hlen hmem
  | step hinv h1 hmem ih => exact subcalls_invariant ih.1 hmem

/-- Witness for C6: the first recursive invocation of
`binary_mult([1,0],[0,1])` receives the pair `([1],[0])`. -/
theorem binary_mult_recursion_invariant_witness :
    ([1] : List Nat).length = ([0] : List Nat).length ∧
      (([1] : List Nat).length % 2 = 0 ∨ ([1] : List Nat).length = 1) :=
  binary_mult_recursion_invariant [1, 0] [0, 1] [1] [0] rfl
    (Invoked.direct (by decide) (by decide))

/-- C7: `binary_mult(A, B)` leaves the caller's lists `A` and `B` unchanged:
the final argument states returned by the state-passing embedding are the
original `A` and `B` (the body reads `A`, `B` only through `len`, slicing
— which copies — and subscripts, and the in-place padding and addition hit
only those copies). -/
theorem binary_mult_args_unchanged (A B : List Nat) (st : List Nat × List Nat)
    (r : List Nat) (hlen : A.length = B.length) (hpos : 0 < A.length)
    (h : binary_mult A B = some (st, r)) : st = (A, B) :=
  binary_multF_state h

/-- Witness for C7 at `A = [1,0]`, `B = [1,1]`. -/
theorem binary_mult_args_unchanged_witness :
    (([1, 0], [1, 1]) : List Nat × List Nat) = ([1, 0], [1, 1]) :=
  binary_mult_args_unchanged [1, 0] [1, 1] ([1, 0], [1, 1]) [0, 1, 1, 0]
    rfl (by decide) (by decide)

/-- C8: after `pad_same_length(X, Y)` both lists have the same length, each
final state extends its input only by prepending zero bits, and the common
length is even unless it equals 1. -/
theorem pad_same_length_spec (X Y : List Nat) :
    (pad_same_length X Y).1.length = (pad_same_length X Y).2.length ∧
      (∃ k, (pad_same_length X Y).1 = List.replicate k 0 ++ X) ∧
      (∃ k, (pad_same_length X Y).2 = List.replicate k 0 ++ Y) ∧
      ((pad_same_length X Y).1.length % 2 = 0 ∨
        (pad_same_length X Y).1.length = 1) :=
  ⟨(pad_fst_length X Y).trans (pad_snd_length X Y).symm,
    pad_fst_shape X Y, pad_snd_shape X Y,
    by rw [pad_fst_length]; exact evenize_even_or_one _⟩

/-- C9: on two lists that already share an even-or-1 length,
`pad_same_length` is a no-op: both argument states are unchanged. -/
theorem pad_same_length_noop (X Y : List Nat) (hlen : X.length = Y.length)
    (hpar : X.length % 2 = 0 ∨ X.length = 1) :
    pad_same_length X Y = (X, Y) := by
  have h1 : pad_first X Y = (X, Y) := by
    unfold pad_first prepend_n_times
    rw [if_neg (by omega)]
    have h0 : Y.length - X.length = 0 := by omega
    rw [h0]
    simp
  unfold pad_same_length
  rw [h1]
  unfold pad_even
  rw [if_neg (by simp only []; omega)]

/-- Witness for C9 at `X = [1,0]`, `Y = [1,1]` (common even length 2). -/
theorem pad_same_length_noop_witness :
    pad_same_length [1, 0] [1, 1] = ([1, 0], [1, 1]) :=
  pad_same_length_noop [1, 0] [1, 1] rfl (by decide)

/-- C10: `binary_add(X, Y)` leaves both argument lists mutated: on return
each holds its zero-padded common-length contents in reversed
(least-significant-bit-first) order — the in-place reversals are never
undone on the arguments; only the fresh result list is reversed back. -/
theorem binary_add_mutates_args (X Y : List Nat) :
    (binary_add X Y).1 = (pad_same_length X Y).1.reverse ∧
      (binary_add X Y).2.1 = (pad_same_length X Y).2.reverse ∧
      (∃ k, (binary_add X Y).1 = (List.replicate k 0 ++ X).reverse) ∧
      (∃ k, (binary_add X Y).2.1 = (List.replicate k 0 ++ Y).reverse) := by
  refine ⟨rfl, rfl, ?_, ?_⟩
  · obtain ⟨k, hk⟩ := pad_fst_shape X Y
    exact ⟨k, by simp only [binary_add_eq]; rw [hk]⟩
  · obtain ⟨k, hk⟩ := pad_snd_shape X Y
    exact ⟨k, by simp only [binary_add_eq]; rw [hk]⟩

end BinaryMult
